import Mathlib

/-!
Verification of the smart-traffic-ai junction controller
(`src/junction/junction_controller.py`).

The controller keeps an exponentially smoothed vehicle count per direction
(`update_counts`) and arbitrates a green phase (`decide_signal`).  Python
floats and timestamps are modelled as rationals, Python ints as `ℤ`, and the
`Dict[str, ...]` raw-count argument as an association list iterated in order.
The four-key `smooth_counts` dictionary (fixed keys NORTH, EAST, SOUTH, WEST
in insertion order) is modelled as a total function `Direction → ℚ` together
with the iteration-order list `dirOrder`.
-/

inductive Direction
  | NORTH
  | EAST
  | SOUTH
  | WEST
deriving DecidableEq

/-- Iteration order of the `smooth_counts` dictionary: insertion order of the
keys in `__init__`. -/
def dirOrder : List Direction := [Direction.NORTH, Direction.EAST, Direction.SOUTH, Direction.WEST]

/-- Python `int(x)` applied to a float/rational: truncation toward zero. -/
def pyTrunc (q : ℚ) : ℤ := if q < 0 then -⌊-q⌋ else ⌊q⌋

/-- State of `JunctionController`: configuration constants and the mutable
fields assigned in `__init__`. -/
structure JunctionController where
  MIN_GREEN : ℤ
  MAX_GREEN : ℤ
  ALPHA : ℚ
  MAX_CONSECUTIVE : ℤ
  current_green : Option Direction
  green_end_time : ℚ
  last_green : Option Direction
  consecutive_count : ℤ
  current_duration : ℤ
  smooth_counts : Direction → ℚ

/-- `JunctionController.__init__`: stores the four parameters and initializes
the mutable state; it performs no validation of the parameters. -/
def JunctionController.init (min_green max_green : ℤ) (smoothing_alpha : ℚ)
    (max_consecutive : ℤ) : JunctionController :=
  { MIN_GREEN := min_green
    MAX_GREEN := max_green
    ALPHA := smoothing_alpha
    MAX_CONSECUTIVE := max_consecutive
    current_green := none
    green_end_time := 0
    last_green := none
    consecutive_count := 0
    current_duration := 0
    smooth_counts := fun _ => 0 }

/-- One iteration of the `for direction in raw_counts` loop body:
`smooth_counts[direction] = ALPHA * smooth_counts[direction] + (1 - ALPHA) * raw_counts[direction]`. -/
def updateOne (alpha : ℚ) (sc : Direction → ℚ) (d : Direction) (c : ℤ) : Direction → ℚ :=
  fun e => if e = d then alpha * sc d + (1 - alpha) * (c : ℚ) else sc e

/-- `JunctionController.update_counts(raw_counts)`: iterates over the keys of
`raw_counts` (modelled as an association list in iteration order) and updates
each corresponding smoothed count in place. -/
def JunctionController.update_counts (s : JunctionController)
    (raw_counts : List (Direction × ℤ)) : JunctionController :=
  { s with
    smooth_counts :=
      raw_counts.foldl (fun sc p => updateOne s.ALPHA sc p.1 p.2) s.smooth_counts }

/-- A raw-counts dictionary holding a value for every known direction, in the
iteration order the main loop produces it. -/
def fullRaw (raw : Direction → ℤ) : List (Direction × ℤ) :=
  dirOrder.map (fun d => (d, raw d))

/- ### Evaluation lemmas for `update_counts` -/

theorem updateOne_apply_ne (alpha : ℚ) (sc : Direction → ℚ) (d e : Direction) (c : ℤ)
    (h : e ≠ d) : updateOne alpha sc d c e = sc e := by
  simp [updateOne, h]

theorem foldl_updateOne_not_mem (alpha : ℚ) :
    ∀ (l : List (Direction × ℤ)) (sc : Direction → ℚ) (d : Direction),
      d ∉ l.map Prod.fst →
      l.foldl (fun sc p => updateOne alpha sc p.1 p.2) sc d = sc d := by
  intro l
  induction l with
  | nil => intro sc d _; rfl
  | cons p t ih =>
    intro sc d hd
    simp only [List.map_cons, List.mem_cons] at hd
    push_neg at hd
    simp only [List.foldl_cons]
    rw [ih _ _ hd.2, updateOne_apply_ne _ _ _ _ _ hd.1]

theorem update_counts_smooth_not_mem (s : JunctionController)
    (raw_counts : List (Direction × ℤ)) (d : Direction)
    (hd : d ∉ raw_counts.map Prod.fst) :
    (s.update_counts raw_counts).smooth_counts d = s.smooth_counts d :=
  foldl_updateOne_not_mem s.ALPHA raw_counts s.smooth_counts d hd

theorem update_counts_fullRaw_apply (s : JunctionController) (raw : Direction → ℤ)
    (d : Direction) :
    (s.update_counts (fullRaw raw)).smooth_counts d
      = s.ALPHA * s.smooth_counts d + (1 - s.ALPHA) * (raw d : ℚ) := by
  cases d <;>
    simp [JunctionController.update_counts, fullRaw, dirOrder, updateOne]

/-- `update_counts` touches only `smooth_counts`; every other field of the
controller is left unchanged. -/
theorem update_counts_frame (s : JunctionController) (raw_counts : List (Direction × ℤ)) :
    (s.update_counts raw_counts).MIN_GREEN = s.MIN_GREEN ∧
    (s.update_counts raw_counts).MAX_GREEN = s.MAX_GREEN ∧
    (s.update_counts raw_counts).ALPHA = s.ALPHA ∧
    (s.update_counts raw_counts).MAX_CONSECUTIVE = s.MAX_CONSECUTIVE ∧
    (s.update_counts raw_counts).current_green = s.current_green ∧
    (s.update_counts raw_counts).green_end_time = s.green_end_time ∧
    (s.update_counts raw_counts).last_green = s.last_green ∧
    (s.update_counts raw_counts).consecutive_count = s.consecutive_count ∧
    (s.update_counts raw_counts).current_duration = s.current_duration := by
  refine ⟨rfl, rfl, rfl, rfl, rfl, rfl, rfl, rfl, rfl⟩

/- ### Claim C3 -/

/-- C3: one call to `update_counts` with a raw-counts mapping defined (and
non-negative) on every known direction sets each direction's smoothed demand
to exactly `ALPHA * previous + (1 - ALPHA) * raw`. -/
theorem C3_update_counts_ema (s : JunctionController) (raw : Direction → ℤ)
    (hraw : ∀ d, 0 ≤ raw d) (d : Direction) :
    (s.update_counts (fullRaw raw)).smooth_counts d
      = s.ALPHA * s.smooth_counts d + (1 - s.ALPHA) * (raw d : ℚ) :=
  update_counts_fullRaw_apply s raw d

/-- Witness for C3 at a concrete state and raw-count mapping. -/
theorem C3_update_counts_ema_witness :
    (∀ d, 0 ≤ (fun _ : Direction => (4 : ℤ)) d) ∧
    ((JunctionController.init 15 90 (7/10) 2).update_counts
        (fullRaw (fun _ => 4))).smooth_counts Direction.NORTH
      = (7:ℚ)/10 * 0 + (1 - 7/10) * ((4:ℤ) : ℚ) := by
  refine ⟨fun d => by norm_num, ?_⟩
  have h := C3_update_counts_ema (JunctionController.init 15 90 (7/10) 2)
    (fun _ => 4) (fun d => by norm_num) Direction.NORTH
  simpa [JunctionController.init] using h

/- ### Claim C10 -/

/-- C10: `update_counts` modifies only the smoothed entries for directions
present as keys of the given mapping; a known direction absent from the
mapping keeps its previous smoothed demand, and no other controller field is
modified by the call. -/
theorem C10_update_counts_frame (s : JunctionController)
    (raw_counts : List (Direction × ℤ)) (d : Direction)
    (hd : d ∉ raw_counts.map Prod.fst) :
    (s.update_counts raw_counts).smooth_counts d = s.smooth_counts d ∧
    (s.update_counts raw_counts).MIN_GREEN = s.MIN_GREEN ∧
    (s.update_counts raw_counts).MAX_GREEN = s.MAX_GREEN ∧
    (s.update_counts raw_counts).ALPHA = s.ALPHA ∧
    (s.update_counts raw_counts).MAX_CONSECUTIVE = s.MAX_CONSECUTIVE ∧
    (s.update_counts raw_counts).current_green = s.current_green ∧
    (s.update_counts raw_counts).green_end_time = s.green_end_time ∧
    (s.update_counts raw_counts).last_green = s.last_green ∧
    (s.update_counts raw_counts).consecutive_count = s.consecutive_count ∧
    (s.update_counts raw_counts).current_duration = s.current_duration :=
  ⟨update_counts_smooth_not_mem s raw_counts d hd,
    rfl, rfl, rfl, rfl, rfl, rfl, rfl, rfl, rfl⟩

/-- Witness for C10: updating only EAST leaves NORTH's demand unchanged. -/
theorem C10_update_counts_frame_witness :
    Direction.NORTH ∉ ([(Direction.EAST, (9:ℤ))].map Prod.fst) ∧
    ((JunctionController.init 15 90 (7/10) 2).update_counts
        [(Direction.EAST, 9)]).smooth_counts Direction.NORTH
      = (JunctionController.init 15 90 (7/10) 2).smooth_counts Direction.NORTH := by
  have hmem : Direction.NORTH ∉ ([(Direction.EAST, (9:ℤ))].map Prod.fst) := by decide
  exact ⟨hmem,
    (C10_update_counts_frame (JunctionController.init 15 90 (7/10) 2)
      [(Direction.EAST, 9)] Direction.NORTH hmem).1⟩

/- ### Claim C4 -/

/-- A finite sequence of `update_counts` ticks, one full raw-count mapping per
tick, as the main loop performs them. -/
def applyUpdates (s : JunctionController) (raws : List (Direction → ℤ)) : JunctionController :=
  raws.foldl (fun t raw => t.update_counts (fullRaw raw)) s

/-- `max(initial, maximum raw count observed for direction d)` along a
sequence of raw-count mappings. -/
def obsBound (d : Direction) (start : ℚ) (raws : List (Direction → ℤ)) : ℚ :=
  raws.foldl (fun b raw => max b ((raw d : ℤ) : ℚ)) start

theorem obsBound_mono (d : Direction) :
    ∀ (raws : List (Direction → ℤ)) (x y : ℚ), x ≤ y →
      obsBound d x raws ≤ obsBound d y raws := by
  intro raws
  induction raws with
  | nil => intro x y h; exact h
  | cons raw t ih =>
    intro x y h
    exact ih _ _ (max_le_max h le_rfl)

theorem applyUpdates_ALPHA (s : JunctionController) (raws : List (Direction → ℤ)) :
    (applyUpdates s raws).ALPHA = s.ALPHA := by
  induction raws generalizing s with
  | nil => rfl
  | cons raw t ih => exact ih (s.update_counts (fullRaw raw))

theorem ema_step_bounds (alpha old raw : ℚ) (h0 : 0 ≤ alpha) (h1 : alpha ≤ 1)
    (hold : 0 ≤ old) (hraw : 0 ≤ raw) :
    0 ≤ alpha * old + (1 - alpha) * raw ∧
      alpha * old + (1 - alpha) * raw ≤ max old raw := by
  have h1' : 0 ≤ 1 - alpha := by linarith
  constructor
  · positivity
  · have hle : alpha * old + (1 - alpha) * raw
        ≤ alpha * max old raw + (1 - alpha) * max old raw := by
      have := le_max_left old raw
      have := le_max_right old raw
      nlinarith
    calc alpha * old + (1 - alpha) * raw
        ≤ alpha * max old raw + (1 - alpha) * max old raw := hle
      _ = max old raw := by ring

theorem applyUpdates_bounds (raws : List (Direction → ℤ)) :
    ∀ (s : JunctionController), 0 ≤ s.ALPHA → s.ALPHA < 1 →
      (∀ d, 0 ≤ s.smooth_counts d) →
      (∀ raw ∈ raws, ∀ d, 0 ≤ raw d) →
      ∀ d, 0 ≤ (applyUpdates s raws).smooth_counts d ∧
        (applyUpdates s raws).smooth_counts d ≤ obsBound d (s.smooth_counts d) raws := by
  induction raws with
  | nil =>
    intro s _ _ hs _ d
    exact ⟨hs d, le_rfl⟩
  | cons raw t ih =>
    intro s h0 h1 hs hr d
    have hrawd : ∀ e, (0:ℚ) ≤ ((raw e : ℤ) : ℚ) := by
      intro e
      exact_mod_cast hr raw (List.mem_cons_self raw t) e
    have hstep : ∀ e, (s.update_counts (fullRaw raw)).smooth_counts e
        = s.ALPHA * s.smooth_counts e + (1 - s.ALPHA) * (raw e : ℚ) :=
      update_counts_fullRaw_apply s raw
    have hb : ∀ e, 0 ≤ (s.update_counts (fullRaw raw)).smooth_counts e ∧
        (s.update_counts (fullRaw raw)).smooth_counts e ≤ max (s.smooth_counts e) ((raw e : ℤ) : ℚ) := by
      intro e
      rw [hstep e]
      exact ema_step_bounds s.ALPHA (s.smooth_counts e) ((raw e : ℤ) : ℚ)
        h0 (le_of_lt h1) (hs e) (hrawd e)
    have halpha : (s.update_counts (fullRaw raw)).ALPHA = s.ALPHA := rfl
    have ih' := ih (s.update_counts (fullRaw raw))
      (by rw [halpha]; exact h0) (by rw [halpha]; exact h1)
      (fun e => (hb e).1)
      (fun r hr' e => hr r (List.mem_cons_of_mem raw hr') e)
    constructor
    · exact (ih' d).1
    · calc (applyUpdates s (raw :: t)).smooth_counts d
          ≤ obsBound d ((s.update_counts (fullRaw raw)).smooth_counts d) t := (ih' d).2
        _ ≤ obsBound d (max (s.smooth_counts d) ((raw d : ℤ) : ℚ)) t :=
            obsBound_mono d t _ _ (hb d).2
        _ = obsBound d (s.smooth_counts d) (raw :: t) := rfl

/-- C4: along any finite sequence of full-mapping updates with non-negative
raw counts, for `ALPHA ∈ [0,1)` each direction's smoothed demand stays within
`[0, max(initial demand, maximum raw count observed for that direction)]`; in
particular it is never negative.  Quantifying over all sequences covers every
prefix, i.e. the bound holds after every update. -/
theorem C4_smoothing_bound (s : JunctionController) (raws : List (Direction → ℤ))
    (h0 : 0 ≤ s.ALPHA) (h1 : s.ALPHA < 1)
    (hs : ∀ d, 0 ≤ s.smooth_counts d)
    (hr : ∀ raw ∈ raws, ∀ d, 0 ≤ raw d) (d : Direction) :
    0 ≤ (applyUpdates s raws).smooth_counts d ∧
      (applyUpdates s raws).smooth_counts d ≤ obsBound d (s.smooth_counts d) raws :=
  applyUpdates_bounds raws s h0 h1 hs hr d

/-- Witness for C4 on a concrete two-tick sequence. -/
theorem C4_smoothing_bound_witness :
    0 ≤ (applyUpdates (JunctionController.init 15 90 (7/10) 2)
        [fun _ => 10, fun _ => 2]).smooth_counts Direction.NORTH ∧
      (applyUpdates (JunctionController.init 15 90 (7/10) 2)
        [fun _ => 10, fun _ => 2]).smooth_counts Direction.NORTH
        ≤ obsBound Direction.NORTH
            ((JunctionController.init 15 90 (7/10) 2).smooth_counts Direction.NORTH)
            [fun _ => 10, fun _ => 2] := by
  refine C4_smoothing_bound (JunctionController.init 15 90 (7/10) 2)
    [fun _ => 10, fun _ => 2] (by norm_num [JunctionController.init])
    (by norm_num [JunctionController.init])
    (fun d => by norm_num [JunctionController.init]) ?_ Direction.NORTH
  intro raw hraw e
  simp only [List.mem_cons, List.mem_singleton] at hraw
  rcases hraw with h | h | h
  · subst h; norm_num
  · subst h; norm_num
  · exact absurd h (List.not_mem_nil raw)

/- ### `decide_signal`: selection machinery -/

/-- Python `max(values)` over the four dictionary values in iteration
order. -/
def maxValues (sc : Direction → ℚ) : ℚ :=
  max (max (max (sc Direction.NORTH) (sc Direction.EAST)) (sc Direction.SOUTH))
    (sc Direction.WEST)

/-- Python `list.index(x)`: index of the first occurrence of `x`. -/
def idxOfQ (x : ℚ) : List ℚ → ℕ
  | [] => 0
  | a :: l => if a = x then 0 else idxOfQ x l + 1

/-- `directions[values.index(max(values))]`: the argmax candidate of the
selection step. -/
def select (sc : Direction → ℚ) : Direction :=
  (dirOrder.get? (idxOfQ (maxValues sc) (dirOrder.map sc))).getD Direction.NORTH

/-- `sorted(self.smooth_counts.items(), key=lambda x: x[1], reverse=True)`:
the items sorted by descending value with the stable order of Python's
`sorted`. -/
def sortedDirs (sc : Direction → ℚ) : List (Direction × ℚ) :=
  (dirOrder.map (fun d => (d, sc d))).mergeSort (fun a b => decide (b.2 ≤ a.2))

/-- The `for d, _ in sorted_dirs: if d != self.last_green: selected = d; break`
loop: first direction in the sorted list different from `last_green`; if none
is found, `selected` keeps its previous value `fallback`. -/
def overridePick (sc : Direction → ℚ) (lastg : Option Direction) (fallback : Direction) :
    Direction :=
  match (sortedDirs sc).find? (fun p => decide (some p.1 ≠ lastg)) with
  | some p => p.1
  | none => fallback

/-- The selection block of `decide_signal`: returns the selected direction and
the final value of `consecutive_count`. -/
def selectionOf (s : JunctionController) : Direction × ℤ :=
  let candidate := select s.smooth_counts
  let cc := if some candidate = s.last_green then s.consecutive_count + 1 else 1
  if s.MAX_CONSECUTIVE < cc then
    (overridePick s.smooth_counts s.last_green candidate, 1)
  else
    (candidate, cc)

/-- The state mutation of the selection branch of `decide_signal`: commit the
selected direction, the fairness counter, and the clamped duration.  Note that
the source never assigns `green_end_time`. -/
def JunctionController.selectPhase (s : JunctionController) : JunctionController :=
  let sel := selectionOf s
  let calculated :=
    max s.MIN_GREEN (min (pyTrunc (s.smooth_counts sel.1) * 2) s.MAX_GREEN)
  { s with
    current_green := some sel.1
    last_green := some sel.1
    consecutive_count := sel.2
    current_duration := calculated }

/-- `JunctionController.decide_signal()` with the two `time.time()` reads
modelled as one explicit `now` parameter.  Returns the state after the call
together with the returned pair `(self.current_green, remaining)`, where
`remaining = max(0, int(green_end_time - now))`. -/
def JunctionController.decide_signal (s : JunctionController) (now : ℚ) :
    JunctionController × Option Direction × ℤ :=
  let s' := if s.current_green = none ∨ s.green_end_time ≤ now then s.selectPhase else s
  (s', s'.current_green, max 0 (pyTrunc (s'.green_end_time - now)))

/- ### Claim C7 -/

/-- Modelled from the spec's words, for comparison with `select`: the first
direction in the fixed iteration order achieving the maximum demand. -/
def specFirstMax (sc : Direction → ℚ) : Direction :=
  (dirOrder.find? (fun d => decide (sc d = maxValues sc))).getD Direction.NORTH

theorem le_maxValues (sc : Direction → ℚ) (d : Direction) : sc d ≤ maxValues sc := by
  cases d <;> unfold maxValues
  · exact le_max_of_le_left (le_max_of_le_left (le_max_left _ _))
  · exact le_max_of_le_left (le_max_of_le_left (le_max_right _ _))
  · exact le_max_of_le_left (le_max_right _ _)
  · exact le_max_right _ _

theorem maxValues_attained (sc : Direction → ℚ) :
    maxValues sc = sc Direction.NORTH ∨ maxValues sc = sc Direction.EAST ∨
      maxValues sc = sc Direction.SOUTH ∨ maxValues sc = sc Direction.WEST := by
  unfold maxValues
  rcases max_choice (max (max (sc Direction.NORTH) (sc Direction.EAST)) (sc Direction.SOUTH))
    (sc Direction.WEST) with h | h
  · rw [h]
    rcases max_choice (max (sc Direction.NORTH) (sc Direction.EAST)) (sc Direction.SOUTH) with
      h' | h'
    · rw [h']
      rcases max_choice (sc Direction.NORTH) (sc Direction.EAST) with h'' | h''
      · exact Or.inl h''
      · exact Or.inr (Or.inl h'')
    · exact Or.inr (Or.inr (Or.inl h'))
  · exact Or.inr (Or.inr (Or.inr h))

theorem select_eq_specFirstMax (sc : Direction → ℚ) : select sc = specFirstMax sc := by
  by_cases h1 : sc Direction.NORTH = maxValues sc
  · simp [select, specFirstMax, dirOrder, idxOfQ, h1]
  · by_cases h2 : sc Direction.EAST = maxValues sc
    · simp [select, specFirstMax, dirOrder, idxOfQ, h1, h2]
    · by_cases h3 : sc Direction.SOUTH = maxValues sc
      · simp [select, specFirstMax, dirOrder, idxOfQ, h1, h2, h3]
      · have h4 : sc Direction.WEST = maxValues sc := by
          rcases maxValues_attained sc with h | h | h | h
          · exact absurd h.symm h1
          · exact absurd h.symm h2
          · exact absurd h.symm h3
          · exact h.symm
        simp [select, specFirstMax, dirOrder, idxOfQ, h1, h2, h3, h4]

/-- C7: the candidate chosen by the selection step is the first direction, in
the fixed iteration order NORTH, EAST, SOUTH, WEST, achieving the maximum
demand; it attains the maximum, so ties always resolve to the same fixed-order
winner on identical input. -/
theorem C7_argmax_first_in_order (sc : Direction → ℚ) :
    select sc = specFirstMax sc ∧
      sc (select sc) = maxValues sc ∧
      (∀ d, sc d ≤ sc (select sc)) := by
  refine ⟨select_eq_specFirstMax sc, ?_, ?_⟩
  · by_cases h1 : sc Direction.NORTH = maxValues sc
    · simpa [select, dirOrder, idxOfQ, h1] using h1
    · by_cases h2 : sc Direction.EAST = maxValues sc
      · simpa [select, dirOrder, idxOfQ, h1, h2] using h2
      · by_cases h3 : sc Direction.SOUTH = maxValues sc
        · simpa [select, dirOrder, idxOfQ, h1, h2, h3] using h3
        · have h4 : sc Direction.WEST = maxValues sc := by
            rcases maxValues_attained sc with h | h | h | h
            · exact absurd h.symm h1
            · exact absurd h.symm h2
            · exact absurd h.symm h3
            · exact h.symm
          simpa [select, dirOrder, idxOfQ, h1, h2, h3, h4] using h4
  · intro d
    by_cases h1 : sc Direction.NORTH = maxValues sc
    · simp only [select, dirOrder, idxOfQ, h1]
      simpa [idxOfQ, h1, select, dirOrder] using (h1.symm ▸ le_maxValues sc d : sc d ≤ sc Direction.NORTH)
    · by_cases h2 : sc Direction.EAST = maxValues sc
      · simpa [select, dirOrder, idxOfQ, h1, h2] using (h2.symm ▸ le_maxValues sc d : sc d ≤ sc Direction.EAST)
      · by_cases h3 : sc Direction.SOUTH = maxValues sc
        · simpa [select, dirOrder, idxOfQ, h1, h2, h3] using (h3.symm ▸ le_maxValues sc d : sc d ≤ sc Direction.SOUTH)
        · have h4 : sc Direction.WEST = maxValues sc := by
            rcases maxValues_attained sc with h | h | h | h
            · exact absurd h.symm h1
            · exact absurd h.symm h2
            · exact absurd h.symm h3
            · exact h.symm
          simpa [select, dirOrder, idxOfQ, h1, h2, h3, h4] using (h4.symm ▸ le_maxValues sc d : sc d ≤ sc Direction.WEST)

/- ### `pyTrunc` facts -/

theorem pyTrunc_of_nonneg (q : ℚ) (h : 0 ≤ q) : pyTrunc q = ⌊q⌋ := by
  simp [pyTrunc, not_lt.mpr h]

theorem pyTrunc_mono {q r : ℚ} (h : q ≤ r) : pyTrunc q ≤ pyTrunc r := by
  unfold pyTrunc
  by_cases hq : q < 0
  · by_cases hr : r < 0
    · simp only [if_pos hq, if_pos hr]
      exact neg_le_neg (Int.floor_le_floor (neg_le_neg h))
    · simp only [if_pos hq, if_neg hr]
      have h1 : -⌊-q⌋ ≤ 0 := by
        have : (0:ℤ) ≤ ⌊-q⌋ := Int.floor_nonneg.mpr (by linarith)
        omega
      have h2 : (0:ℤ) ≤ ⌊r⌋ := Int.floor_nonneg.mpr (not_lt.mp hr)
      omega
  · have hr : ¬ r < 0 := by
      intro hr
      exact hq (lt_of_le_of_lt h hr)
    simp only [if_neg hq, if_neg hr]
    exact Int.floor_le_floor h

/- ### Claim C5 -/

/-- C5: under `MIN_GREEN ≤ MAX_GREEN` and non-negative smoothed demand, every
selection made by `decide_signal` computes a phase duration equal to
`floor(demand[selected]) * 2` clamped into `[MIN_GREEN, MAX_GREEN]`, and that
duration always lies within `[MIN_GREEN, MAX_GREEN]`. -/
theorem C5_duration_bound (s : JunctionController) (now : ℚ)
    (hmm : s.MIN_GREEN ≤ s.MAX_GREEN)
    (hdem : ∀ d, 0 ≤ s.smooth_counts d)
    (hsel : s.current_green = none ∨ s.green_end_time ≤ now) :
    ∃ d, (s.decide_signal now).1.current_green = some d ∧
      (s.decide_signal now).1.current_duration
        = max s.MIN_GREEN (min (⌊s.smooth_counts d⌋ * 2) s.MAX_GREEN) ∧
      s.MIN_GREEN ≤ (s.decide_signal now).1.current_duration ∧
      (s.decide_signal now).1.current_duration ≤ s.MAX_GREEN := by
  have hstate : (s.decide_signal now).1 = s.selectPhase := by
    simp only [JunctionController.decide_signal]
    rw [if_pos hsel]
  refine ⟨(selectionOf s).1, ?_, ?_, ?_, ?_⟩
  · rw [hstate]; rfl
  · rw [hstate]
    show max s.MIN_GREEN (min (pyTrunc (s.smooth_counts (selectionOf s).1) * 2) s.MAX_GREEN)
      = max s.MIN_GREEN (min (⌊s.smooth_counts (selectionOf s).1⌋ * 2) s.MAX_GREEN)
    rw [pyTrunc_of_nonneg _ (hdem _)]
  · rw [hstate]
    exact le_max_left _ _
  · rw [hstate]
    show max s.MIN_GREEN (min (pyTrunc (s.smooth_counts (selectionOf s).1) * 2) s.MAX_GREEN)
      ≤ s.MAX_GREEN
    exact max_le hmm (min_le_right _ _)

/-- Witness for C5 at the freshly initialized controller. -/
theorem C5_duration_bound_witness :
    (JunctionController.init 15 90 (7/10) 2).MIN_GREEN
        ≤ (JunctionController.init 15 90 (7/10) 2).MAX_GREEN ∧
    (∀ d, 0 ≤ (JunctionController.init 15 90 (7/10) 2).smooth_counts d) ∧
    ((JunctionController.init 15 90 (7/10) 2).current_green = none ∨
      (JunctionController.init 15 90 (7/10) 2).green_end_time ≤ 100) ∧
    ∃ d, ((JunctionController.init 15 90 (7/10) 2).decide_signal 100).1.current_green = some d ∧
      ((JunctionController.init 15 90 (7/10) 2).decide_signal 100).1.current_duration
        = max (JunctionController.init 15 90 (7/10) 2).MIN_GREEN
            (min (⌊(JunctionController.init 15 90 (7/10) 2).smooth_counts d⌋ * 2)
              (JunctionController.init 15 90 (7/10) 2).MAX_GREEN) ∧
      (JunctionController.init 15 90 (7/10) 2).MIN_GREEN
        ≤ ((JunctionController.init 15 90 (7/10) 2).decide_signal 100).1.current_duration ∧
      ((JunctionController.init 15 90 (7/10) 2).decide_signal 100).1.current_duration
        ≤ (JunctionController.init 15 90 (7/10) 2).MAX_GREEN := by
  refine ⟨by norm_num [JunctionController.init], fun d => le_rfl, Or.inl rfl, ?_⟩
  exact C5_duration_bound (JunctionController.init 15 90 (7/10) 2) 100
    (by norm_num [JunctionController.init]) (fun d => le_rfl) (Or.inl rfl)

/- ### Claim C1 -/

/-- C1: while the current time is strictly below the stored phase end-time,
`decide_signal` mutates nothing (phase, fairness and demand state are all
unchanged), returns the active phase's direction, and returns a remaining time
that is non-increasing as the query time grows. -/
theorem C1_phase_stability (s : JunctionController) (d : Direction) (t1 t2 : ℚ)
    (hg : s.current_green = some d) (h0 : 0 ≤ t1) (h12 : t1 ≤ t2)
    (hend : t2 < s.green_end_time) :
    (s.decide_signal t1).1 = s ∧
    (s.decide_signal t2).1 = s ∧
    (s.decide_signal t1).2.1 = some d ∧
    (s.decide_signal t2).2.1 = some d ∧
    (s.decide_signal t2).2.2 ≤ (s.decide_signal t1).2.2 := by
  have hne : s.current_green ≠ none := by
    rw [hg]; exact Option.some_ne_none d
  have hc1 : ¬ (s.current_green = none ∨ s.green_end_time ≤ t1) := by
    rintro (h | h)
    · exact hne h
    · exact absurd (lt_of_le_of_lt h12 hend) (not_lt.mpr h)
  have hc2 : ¬ (s.current_green = none ∨ s.green_end_time ≤ t2) := by
    rintro (h | h)
    · exact hne h
    · exact absurd hend (not_lt.mpr h)
  have e1 : s.decide_signal t1 = (s, s.current_green, max 0 (pyTrunc (s.green_end_time - t1))) := by
    simp only [JunctionController.decide_signal]
    rw [if_neg hc1]
  have e2 : s.decide_signal t2 = (s, s.current_green, max 0 (pyTrunc (s.green_end_time - t2))) := by
    simp only [JunctionController.decide_signal]
    rw [if_neg hc2]
  refine ⟨by rw [e1], by rw [e2], by rw [e1, hg], by rw [e2, hg], ?_⟩
  rw [e1, e2]
  exact max_le_max le_rfl (pyTrunc_mono (by linarith))

/-- A concrete controller state holding an active NORTH phase that ends at
time 50, used to witness C1. -/
def activePhaseState : JunctionController :=
  { MIN_GREEN := 15
    MAX_GREEN := 90
    ALPHA := 7/10
    MAX_CONSECUTIVE := 2
    current_green := some Direction.NORTH
    green_end_time := 50
    last_green := some Direction.NORTH
    consecutive_count := 1
    current_duration := 24
    smooth_counts := fun _ => 0 }

/-- Witness for C1 on a concrete state with an active phase. -/
theorem C1_phase_stability_witness :
    activePhaseState.current_green = some Direction.NORTH ∧
    (0:ℚ) ≤ 10 ∧ (10:ℚ) ≤ 20 ∧ (20:ℚ) < activePhaseState.green_end_time ∧
    (activePhaseState.decide_signal 10).1 = activePhaseState ∧
    (activePhaseState.decide_signal 10).2.1 = some Direction.NORTH ∧
    (activePhaseState.decide_signal 20).2.2 ≤ (activePhaseState.decide_signal 10).2.2 := by
  have h := C1_phase_stability activePhaseState Direction.NORTH 10 20 rfl (by norm_num)
    (by norm_num) (by norm_num [activePhaseState])
  exact ⟨rfl, by norm_num, by norm_num, by norm_num [activePhaseState],
    h.1, h.2.2.1, h.2.2.2.2⟩

/- ### Scenario A: raw counts {N:12, E:3, S:1, W:2} on a fresh controller -/

/-- Scenario A's raw counts. -/
def exRawA : Direction → ℤ
  | Direction.NORTH => 12
  | Direction.EAST => 3
  | Direction.SOUTH => 1
  | Direction.WEST => 2

/-- Controller state after one `update_counts` tick of Scenario A on a fresh
default controller. -/
def scnA : JunctionController :=
  (JunctionController.init 15 90 (7/10) 2).update_counts (fullRaw exRawA)

/-- The smoothed demand Scenario A's single tick actually produces:
`0.3 * raw` for each direction. -/
def exDemA : Direction → ℚ
  | Direction.NORTH => 18/5
  | Direction.EAST => 9/10
  | Direction.SOUTH => 3/10
  | Direction.WEST => 3/5

theorem scnA_smooth : scnA.smooth_counts = exDemA := by
  funext d
  have h := update_counts_fullRaw_apply (JunctionController.init 15 90 (7/10) 2) exRawA d
  rw [scnA, h]
  cases d <;> norm_num [JunctionController.init, exRawA, exDemA]

theorem select_exDemA : select exDemA = Direction.NORTH := by
  norm_num [select, exDemA, maxValues, idxOfQ, dirOrder]

theorem selectionOf_scnA : selectionOf scnA = (Direction.NORTH, 1) := by
  have hlast : scnA.last_green = none := rfl
  have hmax : scnA.MAX_CONSECUTIVE = 2 := rfl
  unfold selectionOf
  rw [scnA_smooth, select_exDemA, hlast, hmax]
  norm_num [Option.some_ne_none]

theorem scnA_selectPhase_duration : scnA.selectPhase.current_duration = 15 := by
  show max scnA.MIN_GREEN
      (min (pyTrunc (scnA.smooth_counts (selectionOf scnA).1) * 2) scnA.MAX_GREEN) = 15
  rw [selectionOf_scnA, scnA_smooth]
  have hmin : scnA.MIN_GREEN = 15 := rfl
  have hmax : scnA.MAX_GREEN = 90 := rfl
  rw [hmin, hmax]
  have hfloor : pyTrunc (exDemA Direction.NORTH) = 3 := by
    rw [pyTrunc_of_nonneg _ (by norm_num [exDemA])]
    norm_num [exDemA, Int.floor_eq_iff]
  rw [hfloor]
  norm_num

theorem scnA_decide : (scnA.decide_signal 100).1 = scnA.selectPhase ∧
    (scnA.decide_signal 100).2.2 = 0 := by
  have hcond : scnA.current_green = none ∨ scnA.green_end_time ≤ 100 := Or.inl rfl
  constructor
  · simp only [JunctionController.decide_signal]
    rw [if_pos hcond]
  · simp only [JunctionController.decide_signal]
    rw [if_pos hcond]
    have hend : scnA.selectPhase.green_end_time = 0 := rfl
    show max 0 (pyTrunc (scnA.selectPhase.green_end_time - 100)) = 0
    rw [hend]
    have : pyTrunc ((0:ℚ) - 100) = -100 := by
      norm_num [pyTrunc, Int.floor_intCast]
    rw [this]
    norm_num

/- ### Claim C2 -/

/-- C2: evaluation at the failing input.  On the fresh default controller,
after one Scenario-A update, the selection call at time 100 computes a phase
duration of 15 yet returns a remaining time of 0 — not the full duration —
because `green_end_time` is never assigned and stays 0.  The returned
remaining time therefore differs from the computed duration at phase start,
contradicting the claim. -/
theorem C2_remaining_zero_at_phase_start :
    (scnA.decide_signal 100).1.current_duration = 15 ∧
    (scnA.decide_signal 100).2.2 = 0 ∧
    (scnA.decide_signal 100).1.green_end_time = 0 ∧
    (scnA.decide_signal 100).2.2 ≠ (scnA.decide_signal 100).1.current_duration := by
  obtain ⟨h1, h2⟩ := scnA_decide
  refine ⟨?_, h2, ?_, ?_⟩
  · rw [h1]; exact scnA_selectPhase_duration
  · rw [h1]; rfl
  · rw [h2, h1, scnA_selectPhase_duration]
    norm_num

/- ### Claim C8 -/

/-- C8 counterexample: in Scenario A the code selects NORTH but computes a
phase duration of 15, not 24: the single smoothing update turns raw count 12
into demand 3.6, so the duration is `clamp(3*2, 15, 90) = 15`. -/
theorem C8_counterexample :
    (scnA.decide_signal 100).1.current_green = some Direction.NORTH ∧
    (scnA.decide_signal 100).1.current_duration = 15 ∧
    (scnA.decide_signal 100).1.current_duration ≠ 24 := by
  obtain ⟨h1, _⟩ := scnA_decide
  have hg : scnA.selectPhase.current_green = some (selectionOf scnA).1 := rfl
  refine ⟨?_, ?_, ?_⟩
  · rw [h1, hg, selectionOf_scnA]
  · rw [h1]; exact scnA_selectPhase_duration
  · rw [h1, scnA_selectPhase_duration]; norm_num

/-- C8 amended: starting from the all-zero demand state with `ALPHA = 0.7`,
one Scenario-A update followed by one selection selects NORTH with a phase
duration of `clamp(floor(0.3 * 12) * 2, 15, 90) = 15`. -/
theorem C8_scenarioA_amended :
    (scnA.decide_signal 100).1.current_green = some Direction.NORTH ∧
    (scnA.decide_signal 100).1.current_duration
      = max 15 (min (⌊(1 - 7/10 : ℚ) * 12⌋ * 2) 90) ∧
    (scnA.decide_signal 100).1.current_duration = 15 := by
  obtain ⟨h1, _⟩ := scnA_decide
  have hg : scnA.selectPhase.current_green = some (selectionOf scnA).1 := rfl
  refine ⟨?_, ?_, ?_⟩
  · rw [h1, hg, selectionOf_scnA]
  · rw [h1, scnA_selectPhase_duration]
    have : ⌊(1 - 7/10 : ℚ) * 12⌋ = 3 := by norm_num [Int.floor_eq_iff]
    rw [this]
    norm_num
  · rw [h1]; exact scnA_selectPhase_duration

/- ### Claim C9 -/

theorem init_smooth_zero (mg Mg : ℤ) (a : ℚ) (mc : ℤ) (d : Direction) :
    (JunctionController.init mg Mg a mc).smooth_counts d = 0 := rfl

theorem init_decide_duration (mg Mg : ℤ) (a : ℚ) (mc : ℤ) (now : ℚ)
    (hMg : 0 ≤ Mg) (h : Mg < mg) :
    ((JunctionController.init mg Mg a mc).decide_signal now).1.current_duration = mg := by
  have hcond : (JunctionController.init mg Mg a mc).current_green = none ∨
      (JunctionController.init mg Mg a mc).green_end_time ≤ now := Or.inl rfl
  have hstate : ((JunctionController.init mg Mg a mc).decide_signal now).1
      = (JunctionController.init mg Mg a mc).selectPhase := by
    simp only [JunctionController.decide_signal]
    rw [if_pos hcond]
  rw [hstate]
  show max mg (min (pyTrunc ((JunctionController.init mg Mg a mc).smooth_counts
      (selectionOf (JunctionController.init mg Mg a mc)).1) * 2) Mg) = mg
  rw [init_smooth_zero, pyTrunc_of_nonneg 0 le_rfl]
  rw [Int.floor_zero, zero_mul, min_eq_left hMg, max_eq_left (le_of_lt (lt_of_le_of_lt hMg h))]

/-- C9 counterexample: constructing the controller with `min_green = 90 >
max_green = 15` does not fail — `__init__` performs no validation and stores
the invalid bounds — and the misconfiguration then surfaces during the loop:
the very first `decide_signal` call computes a phase duration of 90, above
`MAX_GREEN = 15`. -/
theorem C9_counterexample :
    (JunctionController.init 90 15 (7/10) 2).MIN_GREEN = 90 ∧
    (JunctionController.init 90 15 (7/10) 2).MAX_GREEN = 15 ∧
    ((JunctionController.init 90 15 (7/10) 2).decide_signal 100).1.current_duration = 90 ∧
    ¬ (((JunctionController.init 90 15 (7/10) 2).decide_signal 100).1.current_duration
        ≤ (JunctionController.init 90 15 (7/10) 2).MAX_GREEN) := by
  have hdur := init_decide_duration 90 15 (7/10) 2 100 (by norm_num) (by norm_num)
  exact ⟨rfl, rfl, hdur, by rw [hdur]; norm_num [JunctionController.init]⟩

/-- C9 amended: construction never fails.  `__init__` accepts any parameter
values and stores them unchanged, and an invalid configuration with
`maxGreen < minGreen` (with `0 ≤ maxGreen`) surfaces as misbehavior during
the control loop: every selection computes a phase duration of `minGreen`,
which exceeds `MAX_GREEN`. -/
theorem C9_no_construction_validation (mg Mg : ℤ) (a : ℚ) (mc : ℤ) (now : ℚ)
    (hMg : 0 ≤ Mg) (h : Mg < mg) :
    (JunctionController.init mg Mg a mc).MIN_GREEN = mg ∧
    (JunctionController.init mg Mg a mc).MAX_GREEN = Mg ∧
    (JunctionController.init mg Mg a mc).ALPHA = a ∧
    (JunctionController.init mg Mg a mc).MAX_CONSECUTIVE = mc ∧
    ((JunctionController.init mg Mg a mc).decide_signal now).1.current_duration = mg ∧
    (JunctionController.init mg Mg a mc).MAX_GREEN
      < ((JunctionController.init mg Mg a mc).decide_signal now).1.current_duration := by
  have hdur := init_decide_duration mg Mg a mc now hMg h
  exact ⟨rfl, rfl, rfl, rfl, hdur, by rw [hdur]; exact h⟩

/-- Witness for the amended C9 at a concrete invalid configuration. -/
theorem C9_no_construction_validation_witness :
    (0:ℤ) ≤ 15 ∧ (15:ℤ) < 90 ∧
    ((JunctionController.init 90 15 (7/10) 2).decide_signal 0).1.current_duration = 90 ∧
    (JunctionController.init 90 15 (7/10) 2).MAX_GREEN
      < ((JunctionController.init 90 15 (7/10) 2).decide_signal 0).1.current_duration := by
  have h := C9_no_construction_validation 90 15 (7/10) 2 0 (by norm_num) (by norm_num)
  exact ⟨by norm_num, by norm_num, h.2.2.2.2.1, h.2.2.2.2.2⟩

/- ### Fairness override: facts about `sortedDirs` and `overridePick` -/

theorem find?_first_of_pairwise {α : Type} {r : α → α → Prop} {p : α → Bool} :
    ∀ {l : List α}, l.Pairwise r → ∀ {x : α}, l.find? p = some x →
      ∀ y ∈ l, p y = true → x = y ∨ r x y := by
  intro l
  induction l with
  | nil => intro _ x hx; simp at hx
  | cons a t ih =>
    intro hpw x hx y hy hpy
    by_cases hpa : p a = true
    · rw [List.find?_cons_of_pos t hpa] at hx
      injection hx with hx
      subst hx
      rcases List.mem_cons.mp hy with h | h
      · exact Or.inl h.symm
      · exact Or.inr (List.rel_of_pairwise_cons hpw h)
    · rw [List.find?_cons_of_neg t hpa] at hx
      rcases List.mem_cons.mp hy with h | h
      · subst h; exact absurd hpy hpa
      · exact ih hpw.tail hx y h hpy

theorem mem_sortedDirs (sc : Direction → ℚ) (d : Direction) : (d, sc d) ∈ sortedDirs sc := by
  rw [sortedDirs, List.mem_mergeSort]
  cases d <;> simp [dirOrder]

theorem sortedDirs_snd (sc : Direction → ℚ) :
    ∀ q ∈ sortedDirs sc, q.2 = sc q.1 := by
  intro q hq
  rw [sortedDirs, List.mem_mergeSort] at hq
  simp only [List.mem_map, dirOrder] at hq
  obtain ⟨d, _, hd⟩ := hq
  rw [← hd]

theorem sortedDirs_pairwise (sc : Direction → ℚ) :
    (sortedDirs sc).Pairwise (fun a b : Direction × ℚ => decide (b.2 ≤ a.2) = true) := by
  rw [sortedDirs]
  refine List.sorted_mergeSort ?_ ?_ _
  · intro a b c hab hbc
    simp only [decide_eq_true_eq] at hab hbc ⊢
    exact le_trans hbc hab
  · intro a b
    rcases le_total b.2 a.2 with h | h
    · simp [h]
    · simp [h]

/-- When the previous green is `some d0`, the override loop always finds a
direction: it returns a direction different from `d0` whose demand is at least
the demand of every direction other than `d0`. -/
theorem overridePick_spec (sc : Direction → ℚ) (d0 fb : Direction) :
    overridePick sc (some d0) fb ≠ d0 ∧
      ∀ e, e ≠ d0 → sc e ≤ sc (overridePick sc (some d0) fb) := by
  rcases hfind : (sortedDirs sc).find? (fun p => decide (some p.1 ≠ some d0)) with _ | p
  · exfalso
    have hall := List.find?_eq_none.mp hfind
    have hN := hall (Direction.NORTH, sc Direction.NORTH) (mem_sortedDirs sc Direction.NORTH)
    have hE := hall (Direction.EAST, sc Direction.EAST) (mem_sortedDirs sc Direction.EAST)
    simp only [decide_eq_true_eq, ne_eq, not_not, Option.some_inj] at hN hE
    rw [← hE] at hN
    exact Direction.noConfusion hN
  · have hop : overridePick sc (some d0) fb = p.1 := by
      unfold overridePick
      rw [hfind]
    rw [hop]
    have hp := List.find?_some hfind
    simp only [decide_eq_true_eq, ne_eq, Option.some_inj] at hp
    refine ⟨hp, ?_⟩
    intro e he
    have hmem : (e, sc e) ∈ sortedDirs sc := mem_sortedDirs sc e
    have hpe : (fun q : Direction × ℚ => decide (some q.1 ≠ some d0)) (e, sc e) = true := by
      simp [he]
    rcases find?_first_of_pairwise (sortedDirs_pairwise sc) hfind (e, sc e) hmem hpe with
      h | h
    · rw [h]
    · simp only [decide_eq_true_eq] at h
      have hsnd : p.2 = sc p.1 := sortedDirs_snd sc p (List.mem_of_find?_eq_some hfind)
      rw [hsnd] at h
      exact h

/- ### Claim C6: fairness bound over phase-selection traces -/

/-- Case analysis of one selection: either the counter was incremented because
the same direction was selected again (and stayed within the limit), or a new
run of length 1 starts with a direction different from the previous green. -/
theorem selectionOf_def (s : JunctionController) :
    selectionOf s =
      if s.MAX_CONSECUTIVE <
          (if some (select s.smooth_counts) = s.last_green then s.consecutive_count + 1 else 1)
      then (overridePick s.smooth_counts s.last_green (select s.smooth_counts), 1)
      else (select s.smooth_counts,
        if some (select s.smooth_counts) = s.last_green then s.consecutive_count + 1 else 1) :=
  rfl

theorem selectionOf_cases (s : JunctionController)
    (h1 : 1 ≤ s.MAX_CONSECUTIVE) (h0 : 0 ≤ s.consecutive_count) :
    1 ≤ (selectionOf s).2 ∧ (selectionOf s).2 ≤ s.MAX_CONSECUTIVE ∧
      (((selectionOf s).2 = s.consecutive_count + 1 ∧
          some (selectionOf s).1 = s.last_green) ∨
        ((selectionOf s).2 = 1 ∧ some (selectionOf s).1 ≠ s.last_green)) := by
  rw [selectionOf_def]
  by_cases hc : some (select s.smooth_counts) = s.last_green
  · rw [if_pos hc]
    by_cases hov : s.MAX_CONSECUTIVE < s.consecutive_count + 1
    · rw [if_pos hov]
      rcases hlast : s.last_green with _ | d0
      · rw [hlast] at hc
        exact absurd hc (Option.some_ne_none _)
      · refine ⟨le_rfl, h1, Or.inr ⟨rfl, ?_⟩⟩
        have hne := (overridePick_spec s.smooth_counts d0 (select s.smooth_counts)).1
        show some (overridePick s.smooth_counts (some d0) (select s.smooth_counts)) ≠ some d0
        simp only [ne_eq, Option.some_inj]
        exact hne
    · rw [if_neg hov]
      refine ⟨?_, ?_, Or.inl ⟨rfl, hc⟩⟩
      · show 1 ≤ s.consecutive_count + 1
        omega
      · show s.consecutive_count + 1 ≤ s.MAX_CONSECUTIVE
        omega
  · rw [if_neg hc]
    have hov : ¬ s.MAX_CONSECUTIVE < (1:ℤ) := by omega
    rw [if_neg hov]
    exact ⟨le_rfl, h1, Or.inr ⟨rfl, hc⟩⟩

theorem selectPhase_fair_fields (s : JunctionController) :
    s.selectPhase.last_green = some (selectionOf s).1 ∧
    s.selectPhase.consecutive_count = (selectionOf s).2 ∧
    s.selectPhase.MAX_CONSECUTIVE = s.MAX_CONSECUTIVE ∧
    s.selectPhase.current_green = some (selectionOf s).1 :=
  ⟨rfl, rfl, rfl, rfl⟩

/-- All `update_counts` calls of one tick (the loop may run any number of them
between two phase selections, each with an arbitrary raw-count mapping). -/
def tickUpdates (s : JunctionController) (raws : List (List (Direction × ℤ))) :
    JunctionController :=
  raws.foldl JunctionController.update_counts s

theorem tickUpdates_fair_fields (raws : List (List (Direction × ℤ))) :
    ∀ s : JunctionController,
      (tickUpdates s raws).last_green = s.last_green ∧
      (tickUpdates s raws).consecutive_count = s.consecutive_count ∧
      (tickUpdates s raws).MAX_CONSECUTIVE = s.MAX_CONSECUTIVE := by
  induction raws with
  | nil => intro s; exact ⟨rfl, rfl, rfl⟩
  | cons raw t ih =>
    intro s
    exact ih (s.update_counts raw)

/-- The sequence of directions selected by successive phase transitions: each
step performs the tick's demand updates and then the selection branch of
`decide_signal` (which runs on every call with a non-negative clock, since
`green_end_time` is never assigned and stays 0). -/
def phaseTrace : JunctionController → List (List (List (Direction × ℤ))) → List Direction
  | _, [] => []
  | s, tick :: rest =>
    (selectionOf (tickUpdates s tick)).1 ::
      phaseTrace (tickUpdates s tick).selectPhase rest

/-- Length of the initial run of direction `d` at the front of a list. -/
def frontRunOf (d : Direction) : List Direction → ℕ
  | [] => 0
  | a :: l => if a = d then frontRunOf d l + 1 else 0

/-- `noLongRunB k l` holds when no direction occurs more than `k` times
consecutively anywhere in `l`. -/
def noLongRunB (k : ℤ) : List Direction → Bool
  | [] => true
  | a :: l => (decide ((frontRunOf a l : ℤ) + 1 ≤ k)) && noLongRunB k l

theorem phaseTrace_fair :
    ∀ (ticks : List (List (List (Direction × ℤ)))) (s : JunctionController),
      1 ≤ s.MAX_CONSECUTIVE → 0 ≤ s.consecutive_count →
      (∀ d, s.last_green = some d → s.consecutive_count ≤ s.MAX_CONSECUTIVE) →
      noLongRunB s.MAX_CONSECUTIVE (phaseTrace s ticks) = true ∧
        (∀ d, s.last_green = some d →
          (frontRunOf d (phaseTrace s ticks) : ℤ) + s.consecutive_count
            ≤ s.MAX_CONSECUTIVE) := by
  intro ticks
  induction ticks with
  | nil =>
    intro s _ _ h3
    refine ⟨rfl, ?_⟩
    intro d hd
    simpa [frontRunOf, phaseTrace] using h3 d hd
  | cons tick rest ih =>
    intro s h1 h0 h3
    have hu := tickUpdates_fair_fields tick s
    set s1 := tickUpdates s tick with hs1
    have hsel := selectionOf_cases s1 (by rw [hu.2.2]; exact h1) (by rw [hu.2.1]; exact h0)
    set d1 := (selectionOf s1).1 with hd1
    set cc1 := (selectionOf s1).2 with hcc1
    have hsp := selectPhase_fair_fields s1
    have hih := ih s1.selectPhase
      (by rw [hsp.2.2.1, hu.2.2]; exact h1)
      (by rw [hsp.2.1]; exact le_trans zero_le_one hsel.1)
      (by
        intro d hd
        rw [hsp.2.1, hsp.2.2.1]
        exact hsel.2.1)
    have htr : phaseTrace s (tick :: rest) = d1 :: phaseTrace s1.selectPhase rest := rfl
    have hK : s1.selectPhase.MAX_CONSECUTIVE = s.MAX_CONSECUTIVE := by
      rw [hsp.2.2.1, hu.2.2]
    have hfront : (frontRunOf d1 (phaseTrace s1.selectPhase rest) : ℤ) + cc1
        ≤ s.MAX_CONSECUTIVE := by
      have := hih.2 d1 hsp.1
      rw [hsp.2.1, hK] at this
      exact this
    constructor
    · rw [htr]
      show (decide ((frontRunOf d1 (phaseTrace s1.selectPhase rest) : ℤ) + 1
          ≤ s.MAX_CONSECUTIVE) && noLongRunB s.MAX_CONSECUTIVE (phaseTrace s1.selectPhase rest))
          = true
      rw [Bool.and_eq_true]
      constructor
      · rw [decide_eq_true_iff]
        have h1cc : (1:ℤ) ≤ cc1 := hsel.1
        omega
      · rw [← hK]; exact hih.1
    · intro d hd
      rw [htr]
      by_cases hdd : d1 = d
      · have hrun : (frontRunOf d (d1 :: phaseTrace s1.selectPhase rest) : ℤ)
            = (frontRunOf d (phaseTrace s1.selectPhase rest) : ℤ) + 1 := by
          simp [frontRunOf, hdd]
        rw [hrun]
        rcases hsel.2.2 with ⟨hinc, hsame⟩ | ⟨_, hdiff⟩
        · have hcc1s : cc1 = s.consecutive_count + 1 := by
            rw [hinc, hu.2.1]
          rw [← hdd]
          have := hfront
          omega
        · exfalso
          rw [hu.1, hd, hdd] at hdiff
          exact hdiff rfl
      · have hrun : frontRunOf d (d1 :: phaseTrace s1.selectPhase rest) = 0 := by
          simp [frontRunOf, hdd]
        rw [hrun]
        have := h3 d hd
        omega

/-- C6: (a) starting from a freshly constructed controller with
`MAX_CONSECUTIVE ≥ 1`, along any sequence of phase selections (each preceded
by arbitrarily many demand updates) no direction is ever selected more than
`MAX_CONSECUTIVE` times consecutively — the code guarantees this even without
the claim's proviso that another direction has non-zero demand; and (b) at an
override point (the argmax direction equals the previous green and the
incremented consecutive count would exceed the limit) the selection is the
highest-demand direction other than the previous green and the consecutive
count resets to 1. -/
theorem C6_fairness_bound (mg Mg : ℤ) (a : ℚ) (mc : ℤ) (hmc : 1 ≤ mc)
    (ticks : List (List (List (Direction × ℤ)))) :
    noLongRunB mc (phaseTrace (JunctionController.init mg Mg a mc) ticks) = true ∧
    (∀ (t : JunctionController) (d0 : Direction), t.last_green = some d0 →
      select t.smooth_counts = d0 → t.MAX_CONSECUTIVE < t.consecutive_count + 1 →
      (selectionOf t).1 ≠ d0 ∧ (selectionOf t).2 = 1 ∧
        ∀ e, e ≠ d0 → t.smooth_counts e ≤ t.smooth_counts (selectionOf t).1) := by
  constructor
  · have h := phaseTrace_fair ticks (JunctionController.init mg Mg a mc) hmc le_rfl
      (by
        intro d hd
        exact Option.noConfusion hd)
    exact h.1
  · intro t d0 hlast hsel hov
    have hcond : some (select t.smooth_counts) = t.last_green := by
      rw [hsel, hlast]
    have hpick : selectionOf t
        = (overridePick t.smooth_counts t.last_green (select t.smooth_counts), 1) := by
      rw [selectionOf_def, if_pos hcond, if_pos hov]
    rw [hpick, hlast, hsel]
    obtain ⟨hne, hge⟩ := overridePick_spec t.smooth_counts d0 d0
    exact ⟨hne, rfl, fun e he => hge e he⟩

/-- Witness for C6 on the default configuration and a one-tick input. -/
theorem C6_fairness_bound_witness :
    (1:ℤ) ≤ 2 ∧
    (noLongRunB 2 (phaseTrace (JunctionController.init 15 90 (7/10) 2)
        [[[(Direction.NORTH, 5)]]]) = true ∧
    (∀ (t : JunctionController) (d0 : Direction), t.last_green = some d0 →
      select t.smooth_counts = d0 → t.MAX_CONSECUTIVE < t.consecutive_count + 1 →
      (selectionOf t).1 ≠ d0 ∧ (selectionOf t).2 = 1 ∧
        ∀ e, e ≠ d0 → t.smooth_counts e ≤ t.smooth_counts (selectionOf t).1)) :=
  ⟨by decide, C6_fairness_bound 15 90 (7/10) 2 (by decide) [[[(Direction.NORTH, 5)]]]⟩
